import Mathlib

/-!
# Verification of the content versioning and chunking pipeline

Shallow embedding of `app/services/vectorizer.py` and
`app/services/document_processor.py` from the `backend_brt` repository,
together with the store semantics they rely on, and proofs checking the
specification's claims against this embedding.

Texts are modelled as `List Char`; machine integers as `Nat` (all the
indices and sizes involved are non-negative in the source).  The
`while` loop of `chunk_text` is modelled with an explicit fuel
parameter: `none` means the loop has not finished within the given
fuel, so `∀ fuel, … = none` states that the Python loop never
terminates on that input.
-/

/-- The ASCII whitespace characters matched by Python's regex class
`\s` and stripped by `str.strip()` (space, tab, newline, carriage
return, vertical tab, form feed).  The additional Unicode whitespace
code points also matched by `\s` play no role in the claims and are
not modelled. -/
def pyIsSpace (c : Char) : Bool :=
  c = ' ' || c = '\t' || c = '\n' || c = '\r' || c = '\x0b' || c = '\x0c'

/-- Helper for `re.sub(r'\s+', ' ', text)`: replace every maximal run
of whitespace by a single space.  The boolean records whether the
previous character belonged to a whitespace run. -/
def collapseWsAux : Bool → List Char → List Char
  | _, [] => []
  | prevSpace, c :: rest =>
    if pyIsSpace c then
      if prevSpace then collapseWsAux true rest
      else ' ' :: collapseWsAux true rest
    else c :: collapseWsAux false rest

/-- `re.sub(r'\s+', ' ', text)`. -/
def collapseWs (l : List Char) : List Char := collapseWsAux false l

/-- Python `str.strip()`: drop leading and trailing whitespace. -/
def pyStrip (l : List Char) : List Char :=
  ((l.dropWhile pyIsSpace).reverse.dropWhile pyIsSpace).reverse

/-- Line 22 of `vectorizer.py`: `re.sub(r'\s+', ' ', text).strip()`. -/
def normalizeWs (l : List Char) : List Char := pyStrip (collapseWs l)

/-- `hay[i:i+len(needle)] == needle`, the occurrence test underlying
Python's `str.rfind`. -/
def occursAt (hay needle : List Char) (i : Nat) : Bool :=
  (hay.drop i).take needle.length = needle

/-- Python `hay.rfind(needle)`: the largest index at which `needle`
occurs in `hay` (`none` for Python's `-1`). -/
def rfindSub (hay needle : List Char) : Option Nat :=
  ((List.range (hay.length + 1)).filter (occursAt hay needle)).getLast?

/-- Lines 47-51 of `vectorizer.py`: try to cut the candidate chunk at
the last sentence break `'. '` provided the break sits beyond
`chunk_size // 2`; otherwise keep the candidate as is.  Returns the
chunk together with the updated `end` cursor. -/
def cutSentence (cs start e0 : Nat) (chunk0 : List Char) : List Char × Nat :=
  match rfindSub chunk0 ['.', ' '] with
  | some sb =>
    if cs / 2 < sb then (chunk0.take (sb + 1), start + sb + 1)
    else (chunk0, e0)
  | none => (chunk0, e0)

/-- Lines 41-51 of `vectorizer.py`: prefer a paragraph break `"\n\n"`
beyond `chunk_size // 2`; otherwise fall back to the sentence-break
search. -/
def cutAt (cs start e0 : Nat) (chunk0 : List Char) : List Char × Nat :=
  match rfindSub chunk0 ['\n', '\n'] with
  | some pb =>
    if cs / 2 < pb then (chunk0.take pb, start + pb)
    else cutSentence cs start e0 chunk0
  | none => cutSentence cs start e0 chunk0

/-- One iteration of the `while` loop body of `chunk_text` (lines
31-52): compute the candidate end, slice the candidate chunk, and
apply the boundary search when this is not the final chunk.  Returns
the emitted chunk together with the final `end` cursor. -/
def chunkStep (cs : Nat) (t : List Char) (start : Nat) : List Char × Nat :=
  let e0 := min (start + cs) t.length
  let chunk0 := (t.drop start).take (e0 - start)
  if e0 < t.length then cutAt cs start e0 chunk0 else (chunk0, e0)

/-- The `while start < len(text)` loop of `chunk_text` (lines 31-54),
with an explicit fuel bound on the number of iterations: `none` means
the loop did not finish within `fuel` iterations.  After emitting a
chunk the cursor advances to `end - chunk_overlap` (line 54,
truncated subtraction: the claims never reach states where the Python
value would be negative and the divergence results only use that the
cursor stays below the text length, which holds in both readings). -/
def chunkLoop (cs co : Nat) (t : List Char) : Nat → Nat → List (List Char) → Option (List (List Char))
  | 0, _, _ => none
  | fuel + 1, start, chunks =>
    if start < t.length then
      let p := chunkStep cs t start
      chunkLoop cs co t fuel (p.2 - co) (chunks ++ [p.1])
    else some chunks

/-- `Vectorizer.chunk_text` (lines 16-56 of `vectorizer.py`), fueled.
Empty input returns no chunks; otherwise the text is
whitespace-normalized, returned whole when it fits in `chunk_size`,
and split by the loop otherwise. -/
def chunk_text (cs co fuel : Nat) (text : List Char) : Option (List (List Char)) :=
  if text = [] then some []
  else
    let t := normalizeWs text
    if t.length ≤ cs then some [t]
    else chunkLoop cs co t fuel 0 []

/-- `Vectorizer.__init__` stores the configuration. -/
structure Vectorizer where
  chunk_size : Nat
  chunk_overlap : Nat
deriving DecidableEq

/-- `Vectorizer.__init__` (lines 12-14 of `vectorizer.py`): plain
field assignment. -/
def Vectorizer.init (chunk_size chunk_overlap : Nat) : Vectorizer :=
  ⟨chunk_size, chunk_overlap⟩

/-! ## The MongoDB content store used by `DocumentProcessor` -/

/-- A metadata value (the Python dicts in this repository hold strings
and numbers). -/
inductive MVal where
  | s : String → MVal
  | i : Int → MVal
deriving DecidableEq

/-- Update an association list at a key, Python-dict style: an
existing key keeps its position and gets the new value, a new key is
appended at the end. -/
def dictSet : List (String × MVal) → String → MVal → List (String × MVal)
  | [], k, v => [(k, v)]
  | (k', v') :: rest, k, v =>
    if k' = k then (k', v) :: rest else (k', v') :: dictSet rest k v

/-- Python `{**a, **b}`: shallow key-by-key merge with the values of
`b` taking precedence (line 66 of `document_processor.py`). -/
def mergeDict (a b : List (String × MVal)) : List (String × MVal) :=
  b.foldl (fun acc kv => dictSet acc kv.1 kv.2) a

/-- A version-history entry (lines 52-56 of `document_processor.py`):
the pre-update content and metadata with a timestamp.  Timestamps are
abstracted to `Nat` (the code uses `datetime.utcnow()`). -/
structure VEntry where
  content : String
  metadata : List (String × MVal)
  timestamp : Nat
deriving DecidableEq

/-- A stored MongoDB document, restricted to the fields that
`update_document` reads or writes (`document_id`, `content`,
`metadata`, `version_history`, timestamps); the remaining fields
(`org_id`, `document_type`, …) are never touched by the modelled
operations. -/
structure MDoc where
  document_id : String
  content : String
  metadata : List (String × MVal)
  version_history : List VEntry
  created_at : Nat
  updated_at : Nat
deriving DecidableEq

/-- A value appearing in the update payload handed to `update_one`:
the new content string, a timestamp, a metadata dictionary, or the
`$push` argument `{"version_history": version_entry}`. -/
inductive FieldVal where
  | str : String → FieldVal
  | time : Nat → FieldVal
  | dict : List (String × MVal) → FieldVal
  | vpush : String → VEntry → FieldVal
deriving DecidableEq

/-- A field path beginning with `'$'`.  MongoDB rejects such paths
inside a `$set` document. -/
def isDollarKey (k : String) : Bool :=
  match k.data with
  | '$' :: _ => true
  | _ => false

/-- The MongoDB write error raised when a `$set` document contains a
dollar-prefixed field path (server error code 52,
`DollarPrefixedFieldName`); pymongo surfaces it as a `WriteError`
exception. -/
inductive MongoError where
  | dollarKey : MongoError
deriving DecidableEq

/-- Apply one `$set` assignment to a stored document.  Only the typed
fields this repository ever sets are interpreted; any other key/value
combination leaves the document unchanged (in the modelled code paths
this case is unreachable: the only other key, `"$push"`, makes the
whole update fail before any assignment). -/
def applySet (d : MDoc) (kv : String × FieldVal) : MDoc :=
  match kv with
  | ("content", FieldVal.str s) => { d with content := s }
  | ("updated_at", FieldVal.time t) => { d with updated_at := t }
  | ("metadata", FieldVal.dict m) => { d with metadata := m }
  | _ => d

/-- Apply a `$set` document to the first stored document matching the
id filter, returning MongoDB's `modified_count` (1 only if the
document actually changed) together with the new store. -/
def set_first (setDoc : List (String × FieldVal)) (docId : String) :
    List MDoc → Nat × List MDoc
  | [] => (0, [])
  | d :: rest =>
    if d.document_id = docId then
      ((if setDoc.foldl applySet d = d then 0 else 1), setDoc.foldl applySet d :: rest)
    else
      ((set_first setDoc docId rest).1, d :: (set_first setDoc docId rest).2)

/-- MongoDB `collection.update_one({"document_id": docId}, {"$set": setDoc})`:
the server first validates the field paths of the `$set` document and
rejects dollar-prefixed ones with a `WriteError` (no document is
modified in that case); otherwise the first matching document is
updated.  Returns `modified_count` and the resulting store. -/
def update_one_set (docs : List MDoc) (docId : String)
    (setDoc : List (String × FieldVal)) : Except MongoError (Nat × List MDoc) :=
  if setDoc.any (fun kv => isDollarKey kv.1) then Except.error MongoError.dollarKey
  else Except.ok (set_first setDoc docId docs)

/-- MongoDB `collection.find_one({"document_id": docId})`: first
stored document with the given id. -/
def find_one (docs : List MDoc) (docId : String) : Option MDoc :=
  docs.find? (fun d => d.document_id = docId)

/-- `DocumentProcessor.update_document` (lines 43-73 of
`document_processor.py`).  The result is `Except.error e` when the
`update_one` call raises (the exception propagates and the store is
left unchanged), and `Except.ok (b, docs')` when the function returns
the boolean `b` with resulting store `docs'`.  Note the source builds
`update_data = {"content": …, "updated_at": …, "$push": {…}}`
(plus `"metadata"` when the patch is truthy) and passes it as the
argument of `"$set"`, so the `$push` operator ends up as a field path
inside `$set`. -/
def update_document (docs : List MDoc) (document_id content : String)
    (metadata : Option (List (String × MVal))) (now : Nat) :
    Except MongoError (Bool × List MDoc) :=
  match find_one docs document_id with
  | none => Except.ok (false, docs)
  | some current_doc =>
    let version_entry : VEntry := ⟨current_doc.content, current_doc.metadata, now⟩
    let update_data : List (String × FieldVal) :=
      [("content", FieldVal.str content),
       ("updated_at", FieldVal.time now),
       ("$push", FieldVal.vpush "version_history" version_entry)] ++
      (match metadata with
       | some m => if m = [] then [] else [("metadata", FieldVal.dict (mergeDict current_doc.metadata m))]
       | none => [])
    match update_one_set docs document_id update_data with
    | Except.error e => Except.error e
    | Except.ok (modified, docs') => Except.ok (decide (0 < modified), docs')

/-! ## The PostgreSQL chunk table used by `Vectorizer` -/

/-- A row of the `document_embeddings` table (`DocumentEmbedding` in
`app/models/document.py`): `chunk_id` is a plain non-unique string
column, `embedding` is nullable.  The `str(embedding)` rendering of a
vector is kept as an opaque string. -/
structure ChunkRec where
  document_id : String
  chunk_id : String
  chunk_text : String
  embedding : Option String
deriving DecidableEq

/-- The projection returned by `get_document_chunks`. -/
structure ChunkView where
  chunk_id : String
  chunk_text : String
  embedding : Option String
deriving DecidableEq

/-- `Vectorizer.vectorize_document` (lines 58-93 of `vectorizer.py`):
look the document up in MongoDB (unknown id → empty id list, table
untouched), chunk its content, and append one row per chunk — in
chunk order, ids `"{document_id}-chunk-{i}"` — to the embeddings
table.  No existing row is deleted or modified.  `none` propagates
non-termination of `chunk_text`.  The rows added for a chunk list are
`chunk_records`: one `DocumentEmbedding` row per chunk, in enumeration
order, with id `"{document_id}-chunk-{i}"` and no embedding vector. -/
def chunk_records (document_id : String) (chunks : List (List Char)) :
    List ChunkRec :=
  chunks.enum.map fun p =>
    ChunkRec.mk document_id (document_id ++ "-chunk-" ++ toString p.1)
      (String.mk p.2) none

/-- `Vectorizer.vectorize_document`, see `chunk_records` above. -/
def vectorize_document (cs co fuel : Nat) (document_id : String)
    (docs : List MDoc) (table : List ChunkRec) :
    Option (List String × List ChunkRec) :=
  match find_one docs document_id with
  | none => some ([], table)
  | some doc =>
    match chunk_text cs co fuel doc.content.data with
    | none => none
    | some chunks =>
      some ((chunk_records document_id chunks).map (fun r => r.chunk_id),
        table ++ chunk_records document_id chunks)

/-- `Vectorizer.get_document_chunks` (lines 95-109 of
`vectorizer.py`): all rows whose `document_id` matches, projected to
`{chunk_id, chunk_text, embedding}`, in table order. -/
def get_document_chunks (document_id : String) (table : List ChunkRec) :
    List ChunkView :=
  (table.filter fun c => c.document_id = document_id).map fun c =>
    ⟨c.chunk_id, c.chunk_text, c.embedding⟩

/-- Overwrite only the `embedding` column of a row. -/
def setEmb (c : ChunkRec) (e : String) : ChunkRec :=
  ⟨c.document_id, c.chunk_id, c.chunk_text, some e⟩

/-- `Vectorizer.update_embedding` (lines 111-126 of `vectorizer.py`):
find the first row with the given `chunk_id` (`query…first()`); if
none exists return `False` with the table untouched, otherwise store
the rendered vector in that row's `embedding` column and return
`True`. -/
def update_embedding (chunk_id emb : String) : List ChunkRec → Bool × List ChunkRec
  | [] => (false, [])
  | c :: rest =>
    if c.chunk_id = chunk_id then (true, setEmb c emb :: rest)
    else ((update_embedding chunk_id emb rest).1, c :: (update_embedding chunk_id emb rest).2)

/-! ## Concrete inputs used in counterexamples and witnesses -/

/-- The worked example of spec §8: `chunk_size=20, chunk_overlap=5`,
input of normalized length 32. -/
def specExampleText : List Char := "AAAAAAAAAA BBBBBBBBBB CCCCCCCCCC".data

/-- A one-document MongoDB store with current content `"C1"`. -/
def exDocs : List MDoc := [⟨"d", "C1", [], [], 0, 0⟩]

/-- The store of the spec §8 metadata example: current metadata
`{"k": "old", "j": 1}`. -/
def exDocsMeta : List MDoc :=
  [⟨"d", "C1", [("k", MVal.s "old"), ("j", MVal.i 1)], [], 0, 0⟩]

/-- A short document for the double-vectorization counterexample. -/
def exDocsHello : List MDoc := [⟨"d", "hello", [], [], 0, 0⟩]

/-- The chunk row produced by vectorizing `exDocsHello`. -/
def helloRec : ChunkRec := ⟨"d", "d-chunk-0", "hello", none⟩

/-- A two-row chunk table for the `update_embedding` witness. -/
def exTable : List ChunkRec :=
  [⟨"d", "d-chunk-0", "hello", none⟩, ⟨"d", "d-chunk-1", "world", none⟩]

/-! ## Supporting lemmas -/

/-- `chunk i+1` begins with the characters of `p`. -/
def beginsWith (p l : List Char) : Prop := l.take p.length = p

/-- The trailing `n` characters of a chunk (all of it when it is
shorter than `n`, as in Python's `s[-n:]`). -/
def trailing (n : Nat) (l : List Char) : List Char := l.drop (l.length - n)

theorem occursAt_eq {hay needle : List Char} {i : Nat}
    (h : occursAt hay needle i = true) :
    (hay.drop i).take needle.length = needle := by
  simpa [occursAt] using h

theorem occursAt_subset {hay needle : List Char} {i : Nat}
    (h : occursAt hay needle i = true) : ∀ c ∈ needle, c ∈ hay := by
  intro c hc
  have hc' : c ∈ (hay.drop i).take needle.length := by
    rw [occursAt_eq h]; exact hc
  exact List.drop_subset i hay (List.take_subset _ _ hc')

theorem occursAt_length_le {hay needle : List Char} {i : Nat}
    (h : occursAt hay needle i = true) : needle.length ≤ hay.length - i := by
  have hl := congrArg List.length (occursAt_eq h)
  simp only [List.length_take, List.length_drop] at hl
  omega

theorem rfindSub_some {hay needle : List Char} {i : Nat}
    (h : rfindSub hay needle = some i) :
    occursAt hay needle i = true ∧ i ≤ hay.length := by
  unfold rfindSub at h
  rcases List.getLast?_eq_some_iff.mp h with ⟨ys, hys⟩
  have hi : i ∈ (List.range (hay.length + 1)).filter (occursAt hay needle) := by
    rw [hys]; simp
  rw [List.mem_filter, List.mem_range] at hi
  exact ⟨hi.2, by omega⟩

theorem cutSentence_snd_le {cs start e0 : Nat} {chunk0 : List Char}
    (hlen : chunk0.length = e0 - start) (hse : start ≤ e0) :
    (cutSentence cs start e0 chunk0).2 ≤ e0 := by
  unfold cutSentence
  split
  next sb heq =>
    have hb : 2 ≤ chunk0.length - sb := by
      simpa using occursAt_length_le (rfindSub_some heq).1
    split
    · show start + sb + 1 ≤ e0
      omega
    · simp
  next heq => simp

theorem cutAt_snd_le {cs start e0 : Nat} {chunk0 : List Char}
    (hlen : chunk0.length = e0 - start) (hse : start ≤ e0) :
    (cutAt cs start e0 chunk0).2 ≤ e0 := by
  unfold cutAt
  split
  next pb heq =>
    have hb : 2 ≤ chunk0.length - pb := by
      simpa using occursAt_length_le (rfindSub_some heq).1
    split
    · show start + pb ≤ e0
      omega
    · exact cutSentence_snd_le hlen hse
  next heq => exact cutSentence_snd_le hlen hse

theorem chunkStep_snd_le {cs : Nat} {t : List Char} {start : Nat}
    (hs : start < t.length) :
    (chunkStep cs t start).2 ≤ t.length := by
  simp only [chunkStep]
  split
  · next hlt =>
    have hle : (cutAt cs start (min (start + cs) t.length)
        ((t.drop start).take (min (start + cs) t.length - start))).2 ≤
        min (start + cs) t.length := by
      apply cutAt_snd_le
      · simp only [List.length_take, List.length_drop]
        omega
      · omega
    omega
  · show min (start + cs) t.length ≤ t.length
    omega

theorem chunkLoop_diverges {cs co : Nat} {t : List Char} (hco : 0 < co) :
    ∀ fuel start chunks, start < t.length →
      chunkLoop cs co t fuel start chunks = none := by
  intro fuel
  induction fuel with
  | zero => intro start chunks _; rfl
  | succ n ih =>
    intro start chunks hs
    simp only [chunkLoop, if_pos hs]
    apply ih
    have h1 := @chunkStep_snd_le cs t start hs
    omega

theorem chunk_text_some_length {cs co fuel : Nat} {text : List Char}
    {out : List (List Char)} (hco : 0 < co)
    (h : chunk_text cs co fuel text = some out) : out.length ≤ 1 := by
  simp only [chunk_text] at h
  split at h
  · simp only [Option.some.injEq] at h
    subst h
    simp
  · split at h
    · simp only [Option.some.injEq] at h
      subst h
      simp
    · next hlen =>
      rw [chunkLoop_diverges hco fuel 0 [] (by omega)] at h
      exact absurd h (by simp)

theorem mem_collapseWsAux {c : Char} :
    ∀ (b : Bool) (l : List Char), c ∈ collapseWsAux b l →
      c = ' ' ∨ pyIsSpace c = false := by
  intro b l
  induction l generalizing b with
  | nil => intro h; simp [collapseWsAux] at h
  | cons x rest ih =>
    intro h
    simp only [collapseWsAux] at h
    split at h
    · split at h
      · exact ih _ h
      · rcases List.mem_cons.mp h with h1 | h1
        · exact Or.inl h1
        · exact ih _ h1
    · next hx =>
      rcases List.mem_cons.mp h with h1 | h1
      · subst h1
        exact Or.inr (by revert hx; cases pyIsSpace c <;> simp)
      · exact ih _ h1

theorem mem_normalizeWs {c : Char} {t : List Char} (h : c ∈ normalizeWs t) :
    c = ' ' ∨ pyIsSpace c = false := by
  apply mem_collapseWsAux false t
  unfold normalizeWs pyStrip at h
  have h3 := List.mem_reverse.mp h
  have h4 := (List.dropWhile_sublist pyIsSpace).subset h3
  have h5 := List.mem_reverse.mp h4
  exact (List.dropWhile_sublist pyIsSpace).subset h5

theorem newline_not_mem_normalizeWs (t : List Char) : '\n' ∉ normalizeWs t := by
  intro h
  rcases mem_normalizeWs h with h1 | h1
  · exact absurd h1 (by decide)
  · exact absurd h1 (by decide)

/-! ## The claims -/

/-- Claim C1 (code bug).  The claim states that `chunk_text` terminates
for every input and every configuration with
`chunk_overlap < chunk_size` because the cursor strictly increases on
every iteration, in particular after emitting the final chunk.  It
does not: after the final chunk (which ends at `end = len(text)`) the
cursor is set to `len(text) - chunk_overlap`, which is again below
`len(text)` whenever `chunk_overlap > 0`, and the loop re-runs forever
from that fixed point.  At the spec's own §8 example
(`chunk_size=20, chunk_overlap=5`, 32-character input, a valid
configuration) the loop never terminates: no iteration bound `fuel`
suffices. -/
theorem chunk_text_spec_example_diverges :
    ∀ fuel, chunk_text 20 5 fuel specExampleText = none := by
  intro fuel
  have ht : specExampleText ≠ [] := by decide
  simp only [chunk_text, if_neg ht]
  rw [if_neg (by decide)]
  exact chunkLoop_diverges (by decide) fuel 0 [] (by decide)

/-- Claim C4 counterexample.  The claim states that a whitespace-only
input yields zero chunks; in the code only the empty string short-cuts
to zero chunks (line 18), while a nonempty whitespace-only input
normalizes to the empty string, passes the `len(text) <= chunk_size`
test, and is returned as one chunk that is the empty string. -/
theorem chunk_text_whitespace_only_counterexample :
    chunk_text 1000 200 1 [' '] = some [[]] ∧
    chunk_text 1000 200 1 [' '] ≠ some [] := by
  exact ⟨by decide, by decide⟩

/-- Claim C4 (amended): for every text whose whitespace-normalized
form has length ≤ `chunk_size`, `chunk_text` returns exactly one chunk
equal to the normalized text — the empty-string chunk for a nonempty
whitespace-only input — and returns zero chunks exactly when the input
itself is empty. -/
theorem chunk_text_short_input (cs co fuel : Nat) (t : List Char)
    (h : (normalizeWs t).length ≤ cs) :
    chunk_text cs co fuel t = some (if t = [] then [] else [normalizeWs t]) := by
  simp only [chunk_text]
  by_cases ht : t = []
  · simp [ht]
  · simp [ht, h]

/-- Witness for `chunk_text_short_input`. -/
theorem chunk_text_short_input_witness :
    (normalizeWs "hi".data).length ≤ 1000 ∧
    chunk_text 1000 200 1 "hi".data =
      some (if "hi".data = [] then [] else [normalizeWs "hi".data]) :=
  ⟨by decide, chunk_text_short_input 1000 200 1 "hi".data (by decide)⟩

/-- Claim C5.  In every sequence that `chunk_text` returns under a
valid configuration (`chunk_overlap < chunk_size`), each chunk `i+1`
begins with the trailing `chunk_overlap` characters of chunk `i`.
(Note the only multi-chunk sequences ever returned have
`chunk_overlap = 0`, where the shared junction is empty, because for
`chunk_overlap > 0` the loop never terminates on any input long
enough to produce two chunks — the Claim C1 divergence.) -/
theorem chunk_text_consecutive_overlap (cs co fuel : Nat) (t : List Char)
    (out : List (List Char)) (hco : co < cs)
    (h : chunk_text cs co fuel t = some out) :
    ∀ i, (hi : i + 1 < out.length) →
      beginsWith (trailing co (out.get ⟨i, Nat.lt_of_succ_lt hi⟩))
        (out.get ⟨i + 1, hi⟩) := by
  intro i hi
  rcases Nat.eq_zero_or_pos co with hz | hpos
  · subst hz
    simp [trailing, beginsWith]
  · have := chunk_text_some_length hpos h
    omega

/-- Witness for `chunk_text_consecutive_overlap`. -/
theorem chunk_text_consecutive_overlap_witness :
    (0 < 5 ∧ chunk_text 5 0 3 "aaaaaaaaaa".data =
        some ["aaaaa".data, "aaaaa".data]) ∧
    beginsWith (trailing 0 (["aaaaa".data, "aaaaa".data].get ⟨0, by decide⟩))
      (["aaaaa".data, "aaaaa".data].get ⟨1, by decide⟩) :=
  ⟨⟨by decide, by decide⟩,
   chunk_text_consecutive_overlap 5 0 3 "aaaaaaaaaa".data
     ["aaaaa".data, "aaaaa".data] (by decide) (by decide) 0 (by decide)⟩

/-- Claim C6.  On whitespace-normalized text no double newline
survives, so the paragraph-break search (`chunk.rfind('\n\n')` on the
candidate substring, which is always a contiguous slice
`take`-after-`drop` of the normalized text) never finds a match, and
the boundary adjustment always falls through to the sentence-break
branch: every cut is made at the `chunk_size` limit or at a sentence
terminator. -/
theorem paragraph_search_never_matches (t : List Char) (i n cs start e0 : Nat) :
    rfindSub (((normalizeWs t).drop i).take n) ['\n', '\n'] = none ∧
    cutAt cs start e0 (((normalizeWs t).drop i).take n) =
      cutSentence cs start e0 (((normalizeWs t).drop i).take n) := by
  have hnone : rfindSub (((normalizeWs t).drop i).take n) ['\n', '\n'] = none := by
    unfold rfindSub
    have hf : (List.range ((((normalizeWs t).drop i).take n).length + 1)).filter
        (occursAt (((normalizeWs t).drop i).take n) ['\n', '\n']) = [] := by
      rw [List.filter_eq_nil_iff]
      intro j _ hocc
      have hmem : '\n' ∈ ((normalizeWs t).drop i).take n :=
        occursAt_subset hocc '\n' (by simp)
      have hmem2 : '\n' ∈ normalizeWs t :=
        List.drop_subset i _ (List.take_subset n _ hmem)
      exact newline_not_mem_normalizeWs t hmem2
    rw [hf]
    rfl
  refine ⟨hnone, ?_⟩
  unfold cutAt
  rw [hnone]

/-- Claim C7 counterexample.  `Vectorizer.__init__` with
`chunk_overlap = chunk_size = 1000` succeeds and stores the invalid
configuration verbatim — nothing is rejected or clamped and no
`ConfigurationError` exists anywhere in the code. -/
theorem vectorizer_init_accepts_invalid_config :
    Vectorizer.init 1000 1000 = ⟨1000, 1000⟩ ∧
    ¬ (Vectorizer.init 1000 1000).chunk_overlap <
        (Vectorizer.init 1000 1000).chunk_size :=
  ⟨rfl, by decide⟩

/-- Claim C7 (amended): the constructor performs no validation at all —
it stores any `(chunk_size, chunk_overlap)` pair verbatim, including
`chunk_overlap ≥ chunk_size`; the invalid configuration only manifests
later, as non-termination of `chunk_text` on any input longer than
`chunk_size` (for any positive overlap). -/
theorem vectorizer_init_stores_config_unvalidated (cs co : Nat) :
    (Vectorizer.init cs co).chunk_size = cs ∧
    (Vectorizer.init cs co).chunk_overlap = co ∧
    (∀ fuel t, 0 < co → cs < (normalizeWs t).length →
      chunk_text cs co fuel t = none) := by
  refine ⟨rfl, rfl, ?_⟩
  intro fuel t hco hlen
  have ht : t ≠ [] := by
    rintro rfl
    rw [show normalizeWs ([] : List Char) = [] from rfl] at hlen
    simp at hlen
  simp only [chunk_text, if_neg ht]
  rw [if_neg (by omega)]
  exact chunkLoop_diverges hco fuel 0 [] (by omega)

/-- Witness for `vectorizer_init_stores_config_unvalidated`. -/
theorem vectorizer_init_stores_config_unvalidated_witness :
    ((Vectorizer.init 3 3).chunk_size = 3 ∧
      (Vectorizer.init 3 3).chunk_overlap = 3) ∧
    (0 < 3 ∧ 3 < (normalizeWs "aaaaa".data).length) ∧
    chunk_text 3 3 7 "aaaaa".data = none :=
  ⟨⟨(vectorizer_init_stores_config_unvalidated 3 3).1,
    (vectorizer_init_stores_config_unvalidated 3 3).2.1⟩,
   ⟨by decide, by decide⟩,
   (vectorizer_init_stores_config_unvalidated 3 3).2.2 7 "aaaaa".data
     (by decide) (by decide)⟩

theorem update_one_set_dollar {docs : List MDoc} {docId : String}
    {setDoc : List (String × FieldVal)}
    (h : setDoc.any (fun kv => isDollarKey kv.1) = true) :
    update_one_set docs docId setDoc = Except.error MongoError.dollarKey := by
  simp only [update_one_set, if_pos h]

/-- Claim C2 (code bug).  The claim states that every successful
update appends one version entry holding the pre-update content.  But
`update_document` wraps its whole payload — including the `$push` of
the version entry — inside the `$set` operator
(`{"$set": {"content": …, "updated_at": …, "$push": {…}}}`), and
MongoDB rejects the dollar-prefixed field path `"$push"` inside
`$set`, so every update of an existing document raises a `WriteError`
and no version entry is ever appended: there are no successful
content updates at all. -/
theorem update_document_existing_always_raises
    (docs : List MDoc) (document_id content : String)
    (metadata : Option (List (String × MVal))) (now : Nat) (doc : MDoc)
    (h : find_one docs document_id = some doc) :
    update_document docs document_id content metadata now =
      Except.error MongoError.dollarKey := by
  simp only [update_document, h]
  rw [update_one_set_dollar]
  simp only [List.any_append, List.any_cons, List.any_nil]
  rw [show isDollarKey "$push" = true from by decide]
  simp

/-- Witness for `update_document_existing_always_raises`. -/
theorem update_document_existing_always_raises_witness :
    find_one exDocs "d" = some ⟨"d", "C1", [], [], 0, 0⟩ ∧
    update_document exDocs "d" "C2" none 1 =
      Except.error MongoError.dollarKey :=
  ⟨by decide,
   update_document_existing_always_raises exDocs "d" "C2" none 1
     ⟨"d", "C1", [], [], 0, 0⟩ (by decide)⟩

/-- Claim C8 (code bug).  The merge expression the code builds
(`{**current_doc["metadata"], **metadata}`, modelled by `mergeDict`)
is indeed the claimed shallow key-by-key merge with patch precedence —
at the spec's own example it yields `{"k": "v", "j": 1}` — but it is
never persisted: the update payload always carries the `"$push"` key
inside `$set`, so the `update_one` call raises for every existing
document and the stored metadata is never changed. -/
theorem update_document_merge_never_persisted
    (docs : List MDoc) (document_id content : String)
    (patch : List (String × MVal)) (now : Nat) (doc : MDoc)
    (h : find_one docs document_id = some doc) :
    mergeDict [("k", MVal.s "old"), ("j", MVal.i 1)] [("k", MVal.s "v")] =
      [("k", MVal.s "v"), ("j", MVal.i 1)] ∧
    update_document docs document_id content (some patch) now =
      Except.error MongoError.dollarKey := by
  refine ⟨by decide, ?_⟩
  simp only [update_document, h]
  rw [update_one_set_dollar]
  simp only [List.any_append, List.any_cons, List.any_nil]
  rw [show isDollarKey "$push" = true from by decide]
  simp

/-- Witness for `update_document_merge_never_persisted`. -/
theorem update_document_merge_never_persisted_witness :
    find_one exDocsMeta "d" =
      some ⟨"d", "C1", [("k", MVal.s "old"), ("j", MVal.i 1)], [], 0, 0⟩ ∧
    (mergeDict [("k", MVal.s "old"), ("j", MVal.i 1)] [("k", MVal.s "v")] =
        [("k", MVal.s "v"), ("j", MVal.i 1)] ∧
      update_document exDocsMeta "d" "X" (some [("k", MVal.s "v")]) 1 =
        Except.error MongoError.dollarKey) :=
  ⟨by decide,
   update_document_merge_never_persisted exDocsMeta "d" "X"
     [("k", MVal.s "v")] 1
     ⟨"d", "C1", [("k", MVal.s "old"), ("j", MVal.i 1)], [], 0, 0⟩ (by decide)⟩

/-- Claim C10.  `update_document` on an unknown `document_id` returns
`False` from the `find_one` guard before building any payload: no
exception, no version entry, and the store is returned exactly as it
was — no document's content, metadata or timestamps change. -/
theorem update_document_unknown_id_noop
    (docs : List MDoc) (document_id content : String)
    (metadata : Option (List (String × MVal))) (now : Nat)
    (h : find_one docs document_id = none) :
    update_document docs document_id content metadata now =
      Except.ok (false, docs) := by
  simp only [update_document, h]

/-- Witness for `update_document_unknown_id_noop`. -/
theorem update_document_unknown_id_noop_witness :
    find_one exDocs "missing" = none ∧
    update_document exDocs "missing" "X" none 3 = Except.ok (false, exDocs) :=
  ⟨by decide, update_document_unknown_id_noop exDocs "missing" "X" none 3 (by decide)⟩

/-- Claim C3 counterexample.  Vectorizing the same unmodified document
twice returns the same ordered chunk-ID sequence, but the second call
does not replace the first call's rows: `vectorize_document` only adds
rows, so `get_document_chunks` afterwards returns the accumulated two
copies of the chunk set, not exactly the newly produced one. -/
theorem vectorize_document_accumulates_counterexample :
    vectorize_document 1000 200 1 "d" exDocsHello [] =
      some (["d-chunk-0"], [helloRec]) ∧
    vectorize_document 1000 200 1 "d" exDocsHello [helloRec] =
      some (["d-chunk-0"], [helloRec, helloRec]) ∧
    get_document_chunks "d" [helloRec, helloRec] =
      [⟨"d-chunk-0", "hello", none⟩, ⟨"d-chunk-0", "hello", none⟩] ∧
    (get_document_chunks "d" [helloRec, helloRec]).length ≠ 1 :=
  ⟨by decide, by decide, by decide, by decide⟩

/-- Claim C3 (amended): two successive `vectorize_document` calls on
an unmodified document return the same ordered chunk-ID sequence, but
the chunk records accumulate — each call appends its rows to the table
without deleting the prior chunk set, so nothing is replaced
wholesale. -/
theorem vectorize_document_eq_of_none {cs co fuel : Nat} {d : String}
    {docs : List MDoc} (table : List ChunkRec)
    (hf : find_one docs d = none) :
    vectorize_document cs co fuel d docs table = some ([], table) := by
  simp only [vectorize_document, hf]

theorem vectorize_document_eq_of_some {cs co fuel : Nat} {d : String}
    {docs : List MDoc} {doc : MDoc} {chunks : List (List Char)}
    (table : List ChunkRec) (hf : find_one docs d = some doc)
    (hc : chunk_text cs co fuel doc.content.data = some chunks) :
    vectorize_document cs co fuel d docs table =
      some ((chunk_records d chunks).map (fun r => r.chunk_id),
        table ++ chunk_records d chunks) := by
  simp only [vectorize_document, hf, hc]

theorem vectorize_document_same_ids_but_appends
    (cs co fuel : Nat) (d : String) (docs : List MDoc)
    (table tbl1 tbl2 : List ChunkRec) (ids1 ids2 : List String)
    (h1 : vectorize_document cs co fuel d docs table = some (ids1, tbl1))
    (h2 : vectorize_document cs co fuel d docs tbl1 = some (ids2, tbl2)) :
    ids2 = ids1 ∧ ∃ recs, tbl1 = table ++ recs ∧ tbl2 = tbl1 ++ recs := by
  cases hf : find_one docs d with
  | none =>
    rw [vectorize_document_eq_of_none table hf] at h1
    rw [vectorize_document_eq_of_none tbl1 hf] at h2
    simp only [Option.some.injEq, Prod.mk.injEq] at h1 h2
    obtain ⟨hi1, ht1⟩ := h1
    obtain ⟨hi2, ht2⟩ := h2
    constructor
    · rw [← hi1, ← hi2]
    · exact ⟨[], by rw [← ht1, List.append_nil], by rw [← ht2, List.append_nil]⟩
  | some doc =>
    cases hc : chunk_text cs co fuel doc.content.data with
    | none =>
      have hnone : vectorize_document cs co fuel d docs table = none := by
        simp only [vectorize_document, hf, hc]
      rw [hnone] at h1
      exact absurd h1 (by simp)
    | some chunks =>
      rw [vectorize_document_eq_of_some table hf hc] at h1
      rw [vectorize_document_eq_of_some tbl1 hf hc] at h2
      simp only [Option.some.injEq, Prod.mk.injEq] at h1 h2
      obtain ⟨hi1, ht1⟩ := h1
      obtain ⟨hi2, ht2⟩ := h2
      constructor
      · rw [← hi1, ← hi2]
      · exact ⟨_, ht1.symm, ht2.symm⟩

/-- Witness for `vectorize_document_same_ids_but_appends`. -/
theorem vectorize_document_same_ids_but_appends_witness :
    ["d-chunk-0"] = ["d-chunk-0"] ∧
    ∃ recs, [helloRec] = [] ++ recs ∧ [helloRec, helloRec] = [helloRec] ++ recs :=
  vectorize_document_same_ids_but_appends 1000 200 1 "d" exDocsHello
    [] [helloRec] [helloRec, helloRec] ["d-chunk-0"] ["d-chunk-0"]
    (by decide) (by decide)

/-- Claim C9.  `update_embedding` returns `False` exactly when no row
carries the requested `chunk_id`, and in that case the table is
untouched; on success the resulting table is the old one with exactly
one row replaced — the first row matching the `chunk_id` — and that
row changes only in its `embedding` column (`setEmb` keeps
`document_id`, `chunk_id` and `chunk_text`); every other row is
unchanged. -/
theorem update_embedding_frame (cid emb : String) (tbl : List ChunkRec) :
    ((update_embedding cid emb tbl).1 = false ↔ ∀ c ∈ tbl, c.chunk_id ≠ cid) ∧
    ((update_embedding cid emb tbl).1 = false →
      (update_embedding cid emb tbl).2 = tbl) ∧
    ((update_embedding cid emb tbl).1 = true → ∃ i, ∃ hi : i < tbl.length,
      (tbl.get ⟨i, hi⟩).chunk_id = cid ∧
      (update_embedding cid emb tbl).2 =
        tbl.set i (setEmb (tbl.get ⟨i, hi⟩) emb) ∧
      ∀ j, (hj : j < i) → (tbl.get ⟨j, Nat.lt_trans hj hi⟩).chunk_id ≠ cid) := by
  induction tbl with
  | nil =>
    refine ⟨?_, ?_, ?_⟩
    · simp [update_embedding]
    · intro _; rfl
    · intro h; simp [update_embedding] at h
  | cons c rest ih =>
    by_cases hc : c.chunk_id = cid
    · refine ⟨?_, ?_, ?_⟩
      · simp only [update_embedding, if_pos hc]
        constructor
        · intro hf; exact absurd hf (by simp)
        · intro hall; exact absurd hc (hall c (List.mem_cons_self c rest))
      · intro hf
        simp only [update_embedding, if_pos hc] at hf
        exact absurd hf (by simp)
      · intro _
        refine ⟨0, by simp, hc, ?_, ?_⟩
        · simp only [update_embedding, if_pos hc]
          rfl
        · intro j hj
          exact absurd hj (Nat.not_lt_zero j)
    · obtain ⟨ih1, ih2, ih3⟩ := ih
      have hstep1 : (update_embedding cid emb (c :: rest)).1 =
          (update_embedding cid emb rest).1 := by
        simp only [update_embedding, if_neg hc]
      have hstep2 : (update_embedding cid emb (c :: rest)).2 =
          c :: (update_embedding cid emb rest).2 := by
        simp only [update_embedding, if_neg hc]
      refine ⟨?_, ?_, ?_⟩
      · rw [hstep1]
        constructor
        · intro hf c' hmem
          rcases List.mem_cons.mp hmem with h1 | h1
          · rw [h1]; exact hc
          · exact ih1.mp hf c' h1
        · intro hall
          exact ih1.mpr (fun c' h1 => hall c' (List.mem_cons_of_mem c h1))
      · intro hf
        have hf' : (update_embedding cid emb rest).1 = false := by
          rw [← hstep1]; exact hf
        rw [hstep2, ih2 hf']
      · intro htrue
        have ht' : (update_embedding cid emb rest).1 = true := by
          rw [← hstep1]; exact htrue
        obtain ⟨i, hi, hcid, hset, hfirst⟩ := ih3 ht'
        refine ⟨i + 1, by simp only [List.length_cons]; omega, ?_, ?_, ?_⟩
        · simpa using hcid
        · rw [hstep2, hset]
          simp [List.set]
        · intro j hj
          cases j with
          | zero => simpa using hc
          | succ j' =>
            have hj' : j' < i := by omega
            simpa using hfirst j' hj'

/-- Witness for `update_embedding_frame`. -/
theorem update_embedding_frame_witness :
    (update_embedding "nope" "[0.5, 0.5]" exTable).1 = false :=
  (update_embedding_frame "nope" "[0.5, 0.5]" exTable).1.mpr (by decide)
